import Mathlib

/-!
Terrain mesh generation (`generateAdvancedTerrain`, src/src/main.cpp).

A shallow embedding of `generateAdvancedTerrain` (main.cpp, lines 221-310).

Modelling conventions.
* `float` values are exact rationals (`ℚ`); the literal `0.4f` is read as `2/5`.
* `int` and `unsigned int` values are unbounded integers: every integer expression of the
  function is bounded by `width * height`, so no wrap-around is modelled.
* `std::vector<T>` is `List T`; `push_back` appends at the end.
* `perlin.noise` lives in `PerlinNoise.cpp`, which is not in the source tree, and
  `glm::normalize` belongs to an external library (it takes a square root): both are
  parameters of the model.
* `operator[]` outside the bounds of a vector is undefined behaviour in C++; the normals
  pass, which indexes three vectors, is modelled in `Option`, `none` meaning that an access
  was out of range.
-/

namespace Terrain

/-- A `glm::vec3`. -/
abbrev Vec3 := ℚ × ℚ × ℚ

/-- The type of `perlin.noise(x, y, octaves, persistence)`. -/
abbrev Noise := ℚ → ℚ → Int → ℚ → ℚ

/-- Line 225: `int numOctaves = 4;` -/
def numOctaves : Int := 4

/-- Line 226: `float persistence = 0.5f;` -/
def persistence : ℚ := 1 / 2

/-- Line 227: `float lacunarity = 2.0f;` -/
def lacunarity : ℚ := 2

/-- Line 228: `float baseAmplitude = 0.5f;` -/
def baseAmplitude : ℚ := 1 / 2

/-- Line 229: `float baseFrequency = 0.4f;` -/
def baseFrequency : ℚ := 2 / 5

/-- Line 223: `float scale = 1.0f / (std::max(width, height) - 1);` -/
def scale (width height : Int) : ℚ :=
  1 / (((max width height - 1 : Int)) : ℚ)

/-- Lines 238-239: `(x * scale) - 0.5f`, used for both `xPos` and `zPos`. -/
def gridPos (width height : Int) (x : Nat) : ℚ :=
  ((x : Int) : ℚ) * scale width height - 1 / 2

/-- Lines 245-250: the octave loop, with `n` iterations left to run and the current values
of `heightValue`, `amplitude` and `frequency`. -/
def octaveLoop (noise : Noise) (xPos zPos : ℚ) : Nat → ℚ → ℚ → ℚ → ℚ
  | 0, heightValue, _, _ => heightValue
  | n + 1, heightValue, amplitude, frequency =>
      octaveLoop noise xPos zPos n
        (heightValue + amplitude * noise (xPos * frequency) (zPos * frequency) numOctaves persistence)
        (amplitude * persistence)
        (frequency * lacunarity)

/-- Lines 241-250: `heightValue` after the octave loop. -/
def heightValue (noise : Noise) (xPos zPos : ℚ) : ℚ :=
  octaveLoop noise xPos zPos numOctaves.toNat 0 baseAmplitude baseFrequency

/-- Lines 252-257: the five floats pushed onto `vertices` for the cell `(x, z)`.
For `width = 1` or `height = 1` the C++ divides by zero here (and in `scale`); in `ℚ` such
a quotient is `0`, and nothing below relies on its value. -/
def cellVertices (noise : Noise) (width height : Int) (z x : Nat) : List ℚ :=
  let xPos := gridPos width height x
  let zPos := gridPos width height z
  [xPos, heightValue noise xPos zPos, zPos,
    ((x : Int) : ℚ) / (((width - 1 : Int)) : ℚ),
    ((z : Int) : ℚ) / (((height - 1 : Int)) : ℚ)]

/-- Lines 259-268: the entries pushed onto `indices` for the cell `(x, z)`. -/
def cellIndices (width height : Int) (z x : Nat) : List Nat :=
  if (x : Int) < width - 1 ∧ (z : Int) < height - 1 then
    let start : Int := (z : Int) * width + (x : Int)
    [start.toNat, (start + width).toNat, (start + 1).toNat,
      (start + 1).toNat, (start + width).toNat, (start + width + 1).toNat]
  else []

/-- The two vectors the grid loops write. -/
structure Mesh where
  vertices : List ℚ
  indices : List Nat

/-- Lines 238-268: the body of the inner loop for the cell `(x, z)`. -/
def cellStep (noise : Noise) (width height : Int) (z : Nat) (m : Mesh) (x : Nat) : Mesh :=
  { vertices := m.vertices ++ cellVertices noise width height z x
    indices := m.indices ++ cellIndices width height z x }

/-- Lines 236-269: `for (int x = 0; x < width; ++x)`. -/
def rowLoop (noise : Noise) (width height : Int) (m : Mesh) (z : Nat) : Mesh :=
  (List.range width.toNat).foldl (cellStep noise width height z) m

/-- Lines 234-270: `for (int z = 0; z < height; ++z)`. -/
def gridLoop (noise : Noise) (width height : Int) (m : Mesh) : Mesh :=
  (List.range height.toNat).foldl (rowLoop noise width height) m

/-- Line 232: `v.resize(n, 0.0f)`. -/
def resize (v : List ℚ) (n : Nat) : List ℚ :=
  v.take n ++ List.replicate (n - v.length) 0

/-- Lines 279-281: `glm::vec3 v(vertices[3 * i], vertices[3 * i + 1], vertices[3 * i + 2])`. -/
def facePoint (vertices : List ℚ) (i : Nat) : Option Vec3 := do
  let a ← vertices[3 * i]?
  let b ← vertices[3 * i + 1]?
  let c ← vertices[3 * i + 2]?
  pure (a, b, c)

/-- Componentwise `glm::vec3` subtraction. -/
def sub (a b : Vec3) : Vec3 :=
  (a.1 - b.1, a.2.1 - b.2.1, a.2.2 - b.2.2)

/-- The cross product `glm::cross`. -/
def cross (a b : Vec3) : Vec3 :=
  (a.2.1 * b.2.2 - b.2.1 * a.2.2, a.2.2 * b.1 - b.2.2 * a.1, a.1 * b.2.1 - b.1 * a.2.1)

/-- The statement `v[k] += d`. -/
def addAt (v : List ℚ) (k : Nat) (d : ℚ) : Option (List ℚ) :=
  match v[k]? with
  | some a => some (v.set k (a + d))
  | none => none

/-- Lines 287-289 (and 291-293, 295-297): add `normal` to the accumulator of vertex `i`. -/
def addNormal (normals : List ℚ) (i : Nat) (normal : Vec3) : Option (List ℚ) := do
  let n1 ← addAt normals (3 * i) normal.1
  let n2 ← addAt n1 (3 * i + 1) normal.2.1
  addAt n2 (3 * i + 2) normal.2.2

/-- Lines 275-297: the body of the face loop for the triangle starting at offset `i`. -/
def faceStep (normalize : Vec3 → Vec3) (vertices : List ℚ) (indices : List Nat)
    (normals : List ℚ) (i : Nat) : Option (List ℚ) := do
  let i0 ← indices[i]?
  let i1 ← indices[i + 1]?
  let i2 ← indices[i + 2]?
  let v0 ← facePoint vertices i0
  let v1 ← facePoint vertices i1
  let v2 ← facePoint vertices i2
  let edge1 := sub v1 v0
  let edge2 := sub v2 v0
  let normal := normalize (cross edge1 edge2)
  let n0 ← addNormal normals i0 normal
  let n1 ← addNormal n0 i1 normal
  addNormal n1 i2 normal

/-- Lines 273-298: `for (size_t i = 0; i < indices.size(); i += 3)`; the loop runs for
`i = 3 * k` with `k < ⌈indices.size() / 3⌉`. -/
def faceLoop (normalize : Vec3 → Vec3) (vertices : List ℚ) (indices : List Nat)
    (normals : List ℚ) : Option (List ℚ) :=
  (List.range ((indices.length + 2) / 3)).foldlM
    (fun ns k => faceStep normalize vertices indices ns (3 * k)) normals

/-- Lines 303-308: the body of the normalisation loop at offset `i`. -/
def normalizeStep (normalize : Vec3 → Vec3) (normals : List ℚ) (i : Nat) : Option (List ℚ) := do
  let a ← normals[i]?
  let b ← normals[i + 1]?
  let c ← normals[i + 2]?
  let normal := normalize (a, b, c)
  pure (((normals.set i normal.1).set (i + 1) normal.2.1).set (i + 2) normal.2.2)

/-- Lines 301-309: `for (size_t i = 0; i < normals.size(); i += 3)`. -/
def normalizeLoop (normalize : Vec3 → Vec3) (normals : List ℚ) : Option (List ℚ) :=
  (List.range ((normals.length + 2) / 3)).foldlM
    (fun ns k => normalizeStep normalize ns (3 * k)) normals

/-- What the three reference parameters hold once the function is through: `vertices` and
`indices` are written by the grid loops only, `normals` is `none` when the normals pass
made an out-of-range access. -/
structure Output where
  vertices : List ℚ
  indices : List Nat
  normals : Option (List ℚ)

/-- Lines 221-310: `generateAdvancedTerrain(width, height, vertices, indices, normals)`,
the last three arguments being the contents of the vectors at the call. -/
def generateAdvancedTerrain (noise : Noise) (normalize : Vec3 → Vec3) (width height : Int)
    (vertices : List ℚ) (indices : List Nat) (normals : List ℚ) : Output :=
  let normals0 := resize normals vertices.length
  let m := gridLoop noise width height { vertices := vertices, indices := indices }
  { vertices := m.vertices
    indices := m.indices
    normals := (faceLoop normalize m.vertices m.indices normals0).bind (normalizeLoop normalize) }

/-- The six entries pushed at lines 262-267 for the quad with origin `start = z * w + x`,
written over the naturals (see `cellIndices_cast`). -/
def quad (w z x : Nat) : List Nat :=
  [z * w + x, z * w + x + w, z * w + x + 1, z * w + x + 1, z * w + x + w, z * w + x + w + 1]

/-- The stored position of vertex `i`: the first three of the five floats pushed at lines
252-257, read as `vertices[i * 5]`, `vertices[i * 5 + 1]`, `vertices[i * 5 + 2]` by
`setupBuffers` (lines 484-486). -/
def storedPosition (vertices : List ℚ) (i : Nat) : Option Vec3 := do
  let a ← vertices[5 * i]?
  let b ← vertices[5 * i + 1]?
  let c ← vertices[5 * i + 2]?
  pure (a, b, c)

/-- A noise function with values in `[-1, 1]`, used to evaluate the model on examples. -/
def sampleNoise : Noise := fun x z _ _ => if x ≤ z then 1 else -1

/-- A stand-in for `glm::normalize`, used to evaluate the model on examples. -/
def sampleNormalize : Vec3 → Vec3 := fun v => v

/-! ## Lists built from blocks -/

/-- A loop whose body appends to both vectors appends the concatenation of the blocks. -/
theorem foldl_append_blocks (f : Mesh → Nat → Mesh) (a : Nat → List ℚ) (b : Nat → List Nat)
    (hf : ∀ m i, f m i = { vertices := m.vertices ++ a i, indices := m.indices ++ b i })
    (l : List Nat) (m : Mesh) :
    l.foldl f m =
      { vertices := m.vertices ++ l.flatMap a, indices := m.indices ++ l.flatMap b } := by
  induction l generalizing m with
  | nil => simp
  | cons i l ih => simp [List.foldl_cons, ih, hf, List.flatMap_cons, List.append_assoc]

/-- Length of a concatenation of `n` blocks of length `c`. -/
theorem length_flatMap_range {α : Type} (f : Nat → List α) (c n : Nat)
    (hlen : ∀ k, k < n → (f k).length = c) :
    ((List.range n).flatMap f).length = c * n := by
  induction n with
  | zero => simp
  | succ n ih =>
    rw [List.range_succ, List.flatMap_append, List.length_append,
      ih (fun k hk => hlen k (Nat.lt_succ_of_lt hk))]
    simp [hlen n (Nat.lt_succ_self n), Nat.mul_succ]

/-- Entry `j` of block `i` in a concatenation of blocks of length `c`. -/
theorem getElem?_flatMap_range {α : Type} (f : Nat → List α) (c n i j : Nat)
    (hlen : ∀ k, k < n → (f k).length = c) (hi : i < n) (hj : j < c) :
    ((List.range n).flatMap f)[c * i + j]? = (f i)[j]? := by
  induction n with
  | zero => omega
  | succ n ih =>
    have hlen' : ∀ k, k < n → (f k).length = c := fun k hk => hlen k (Nat.lt_succ_of_lt hk)
    have hL := length_flatMap_range f c n hlen'
    rw [List.range_succ, List.flatMap_append]
    simp only [List.flatMap_singleton]
    rcases Nat.lt_succ_iff_lt_or_eq.mp hi with h | h
    · have hlt : c * i + j < ((List.range n).flatMap f).length := by
        rw [hL]
        calc c * i + j < c * i + c := by omega
          _ = c * (i + 1) := by ring
          _ ≤ c * n := Nat.mul_le_mul_left c h
      rw [List.getElem?_append_left hlt]
      exact ih hlen' h
    · subst h
      have hge : ((List.range i).flatMap f).length ≤ c * i + j := by omega
      rw [List.getElem?_append_right hge, hL]
      congr 1
      omega

/-- Concatenating blocks over a range whose last block is empty. -/
theorem flatMap_range_succ_nil {α : Type} (f : Nat → List α) (n : Nat) (h : f n = []) :
    (List.range (n + 1)).flatMap f = (List.range n).flatMap f := by
  rw [List.range_succ, List.flatMap_append]
  simp [h]

/-- Concatenations of blocks that agree on the range are equal. -/
theorem flatMap_range_congr {α : Type} (f g : Nat → List α) (n : Nat)
    (h : ∀ k, k < n → f k = g k) :
    (List.range n).flatMap f = (List.range n).flatMap g := by
  induction n with
  | zero => simp
  | succ n ih =>
    rw [List.range_succ, List.flatMap_append, List.flatMap_append,
      ih (fun k hk => h k (Nat.lt_succ_of_lt hk))]
    simp [h n (Nat.lt_succ_self n)]

/-! ## Closed form of the grid loops -/

theorem rowLoop_eq (noise : Noise) (width height : Int) (m : Mesh) (z : Nat) :
    rowLoop noise width height m z =
      { vertices := m.vertices ++
          (List.range width.toNat).flatMap (cellVertices noise width height z)
        indices := m.indices ++
          (List.range width.toNat).flatMap (cellIndices width height z) } := by
  unfold rowLoop
  exact foldl_append_blocks _ _ _ (fun _ _ => rfl) _ _

theorem gridLoop_eq (noise : Noise) (width height : Int) (m : Mesh) :
    gridLoop noise width height m =
      { vertices := m.vertices ++ (List.range height.toNat).flatMap
          (fun z => (List.range width.toNat).flatMap (cellVertices noise width height z))
        indices := m.indices ++ (List.range height.toNat).flatMap
          (fun z => (List.range width.toNat).flatMap (cellIndices width height z)) } := by
  unfold gridLoop
  exact foldl_append_blocks _ _ _ (fun m z => rowLoop_eq noise width height m z) _ _

theorem cellIndices_cast (w h z x : Nat) :
    cellIndices (w : Int) (h : Int) z x = if x + 1 < w ∧ z + 1 < h then quad w z x else [] := by
  unfold cellIndices quad
  have hc : ((x : Int) < (w : Int) - 1 ∧ (z : Int) < (h : Int) - 1) ↔ (x + 1 < w ∧ z + 1 < h) := by
    omega
  have hs : (z : Int) * (w : Int) + (x : Int) = ((z * w + x : Nat) : Int) := by push_cast; ring
  by_cases hq : x + 1 < w ∧ z + 1 < h
  · rw [if_pos (hc.mpr hq), if_pos hq]
    simp only [hs]
    norm_cast
  · rw [if_neg (fun hh => hq (hc.mp hh)), if_neg hq]

/-- The index vector of a `w` by `h` grid is the concatenation of the quads of the cells
`(x, z)` with `x < w - 1` and `z < h - 1`, row by row. -/
theorem gridIndices_eq (w h : Nat) :
    (List.range h).flatMap (fun z => (List.range w).flatMap (cellIndices (w : Int) (h : Int) z)) =
      (List.range (h - 1)).flatMap (fun z => (List.range (w - 1)).flatMap (quad w z)) := by
  have hrow : ∀ z, z + 1 < h →
      (List.range w).flatMap (cellIndices (w : Int) (h : Int) z) =
        (List.range (w - 1)).flatMap (quad w z) := by
    intro z hz
    cases w with
    | zero => simp
    | succ w =>
      rw [flatMap_range_succ_nil _ w (by rw [cellIndices_cast]; simp)]
      simp only [Nat.add_sub_cancel]
      apply flatMap_range_congr
      intro x hx
      rw [cellIndices_cast, if_pos ⟨by omega, hz⟩]
  cases h with
  | zero => simp
  | succ h =>
    rw [flatMap_range_succ_nil _ h]
    · simp only [Nat.add_sub_cancel]
      apply flatMap_range_congr
      intro z hz
      exact hrow z (by omega)
    · apply List.flatMap_eq_nil_iff.mpr
      intro x _
      rw [cellIndices_cast]
      simp

theorem length_quadRow (w z : Nat) :
    ((List.range (w - 1)).flatMap (quad w z)).length = 6 * (w - 1) :=
  length_flatMap_range _ 6 _ (fun _ _ => rfl)

theorem length_vertexRow (noise : Noise) (width height : Int) (z : Nat) :
    ((List.range width.toNat).flatMap (cellVertices noise width height z)).length =
      5 * width.toNat :=
  length_flatMap_range _ 5 _ (fun _ _ => rfl)

/-- What `generateAdvancedTerrain` leaves in `vertices`. -/
theorem vertices_eq (noise : Noise) (normalize : Vec3 → Vec3) (width height : Int)
    (vs : List ℚ) (is : List Nat) (ns : List ℚ) :
    (generateAdvancedTerrain noise normalize width height vs is ns).vertices =
      vs ++ (List.range height.toNat).flatMap
        (fun z => (List.range width.toNat).flatMap (cellVertices noise width height z)) := by
  simp [generateAdvancedTerrain, gridLoop_eq]

/-- What `generateAdvancedTerrain` leaves in `indices`. -/
theorem indices_eq (noise : Noise) (normalize : Vec3 → Vec3) (w h : Nat)
    (vs : List ℚ) (is : List Nat) (ns : List ℚ) :
    (generateAdvancedTerrain noise normalize (w : Int) (h : Int) vs is ns).indices =
      is ++ (List.range (h - 1)).flatMap (fun z => (List.range (w - 1)).flatMap (quad w z)) := by
  simp only [generateAdvancedTerrain, gridLoop_eq, Int.toNat_ofNat]
  rw [gridIndices_eq]

/-- Float `j` of the vertex of cell `(x, z)`. -/
theorem vertices_getElem? (noise : Noise) (normalize : Vec3 → Vec3) (w h : Nat)
    (ns : List ℚ) (z x j : Nat) (hz : z < h) (hx : x < w) (hj : j < 5) :
    (generateAdvancedTerrain noise normalize (w : Int) (h : Int) [] [] ns).vertices[
        5 * (z * w + x) + j]? = (cellVertices noise (w : Int) (h : Int) z x)[j]? := by
  rw [vertices_eq, List.nil_append]
  simp only [Int.toNat_ofNat]
  have e : 5 * (z * w + x) + j = (5 * w) * z + (5 * x + j) := by ring
  rw [e, getElem?_flatMap_range _ (5 * w) h z (5 * x + j)
    (fun k _ => by simpa using length_vertexRow noise (w : Int) (h : Int) k) hz (by omega)]
  exact getElem?_flatMap_range _ 5 w x j (fun _ _ => rfl) hx hj

/-- Entry `j` of the quad of cell `(x, z)`. -/
theorem indices_getElem? (noise : Noise) (normalize : Vec3 → Vec3) (w h : Nat)
    (ns : List ℚ) (z x j : Nat) (hz : z + 1 < h) (hx : x + 1 < w) (hj : j < 6) :
    (generateAdvancedTerrain noise normalize (w : Int) (h : Int) [] [] ns).indices[
        6 * (z * (w - 1) + x) + j]? = (quad w z x)[j]? := by
  rw [indices_eq, List.nil_append]
  have e : 6 * (z * (w - 1) + x) + j = (6 * (w - 1)) * z + (6 * x + j) := by ring
  rw [e, getElem?_flatMap_range _ (6 * (w - 1)) (h - 1) z (6 * x + j)
    (fun k _ => length_quadRow w k) (by omega) (by omega)]
  exact getElem?_flatMap_range _ 6 (w - 1) x j (fun _ _ => rfl) (by omega) hj

theorem length_vertices (noise : Noise) (normalize : Vec3 → Vec3) (w h : Nat) (ns : List ℚ) :
    (generateAdvancedTerrain noise normalize (w : Int) (h : Int) [] [] ns).vertices.length =
      5 * (w * h) := by
  rw [vertices_eq, List.nil_append, length_flatMap_range _ (5 * w) _
    (fun k _ => by simpa using length_vertexRow noise (w : Int) (h : Int) k)]
  simp [Nat.mul_assoc]

theorem length_indices (noise : Noise) (normalize : Vec3 → Vec3) (w h : Nat) (ns : List ℚ) :
    (generateAdvancedTerrain noise normalize (w : Int) (h : Int) [] [] ns).indices.length =
      6 * ((w - 1) * (h - 1)) := by
  rw [indices_eq, List.nil_append, length_flatMap_range _ (6 * (w - 1)) _
    (fun k _ => length_quadRow w k)]
  simp [Nat.mul_assoc]

/-- A window of a list is determined by its entries. -/
theorem take_drop_eq_of_getElem? {α : Type} (l b : List α) (off : Nat)
    (hb : ∀ j, j < b.length → l[off + j]? = b[j]?) :
    (l.drop off).take b.length = b := by
  apply List.ext_getElem?
  intro j
  by_cases hj : j < b.length
  · rw [List.getElem?_take_of_lt hj, List.getElem?_drop, hb j hj]
  · rw [List.getElem?_eq_none (by simp; omega), List.getElem?_eq_none (by omega)]

/-- The six index entries of the cell `(x, z)`. -/
theorem indices_window (noise : Noise) (normalize : Vec3 → Vec3) (w h : Nat)
    (ns : List ℚ) (z x : Nat) (hz : z + 1 < h) (hx : x + 1 < w) :
    ((generateAdvancedTerrain noise normalize (w : Int) (h : Int) [] [] ns).indices.drop
        (6 * (z * (w - 1) + x))).take 6 = quad w z x :=
  take_drop_eq_of_getElem? _ (quad w z x) _
    (fun j hj => indices_getElem? noise normalize w h ns z x j hz hx hj)

/-- The five floats of the vertex of the cell `(x, z)`. -/
theorem vertices_window (noise : Noise) (normalize : Vec3 → Vec3) (w h : Nat)
    (ns : List ℚ) (z x : Nat) (hz : z < h) (hx : x < w) :
    ((generateAdvancedTerrain noise normalize (w : Int) (h : Int) [] [] ns).vertices.drop
        (5 * (z * w + x))).take 5 = cellVertices noise (w : Int) (h : Int) z x :=
  take_drop_eq_of_getElem? _ (cellVertices noise (w : Int) (h : Int) z x) _
    (fun j hj => vertices_getElem? noise normalize w h ns z x j hz hx hj)

/-- Every entry of the index vector is below the number of vertices. -/
theorem indices_lt (noise : Noise) (normalize : Vec3 → Vec3) (w h : Nat) (ns : List ℚ)
    (i : Nat)
    (hi : i ∈ (generateAdvancedTerrain noise normalize (w : Int) (h : Int) [] [] ns).indices) :
    i < w * h := by
  rw [indices_eq, List.nil_append] at hi
  obtain ⟨z, hz, hi⟩ := List.mem_flatMap.mp hi
  obtain ⟨x, hx, hi⟩ := List.mem_flatMap.mp hi
  rw [List.mem_range] at hz hx
  have hzw : (z + 2) * w ≤ h * w := Nat.mul_le_mul_right w (by omega)
  have e : (z + 2) * w = z * w + w + w := by ring
  have hc : h * w = w * h := Nat.mul_comm h w
  simp only [quad, List.mem_cons, List.mem_singleton, List.not_mem_nil, or_false] at hi
  omega

/-! ## The claims -/

/-- C1: for `width ≥ 2` and `height ≥ 2`, called with empty vectors, the function leaves
`5 * width * height` floats in `vertices` (five per vertex, so `width * height` vertices)
and `6 * (width - 1) * (height - 1)` entries in `indices` (three per triangle, so
`2 * (width - 1) * (height - 1)` triangles). -/
theorem vertex_and_triangle_count (noise : Noise) (normalize : Vec3 → Vec3)
    (width height : Int) (ns : List ℚ) (hw : 2 ≤ width) (hh : 2 ≤ height) :
    ((generateAdvancedTerrain noise normalize width height [] [] ns).vertices.length : Int) =
        5 * (width * height) ∧
      ((generateAdvancedTerrain noise normalize width height [] [] ns).indices.length : Int) =
        3 * (2 * ((width - 1) * (height - 1))) := by
  lift width to ℕ using (by omega)
  lift height to ℕ using (by omega)
  rw [length_vertices, length_indices]
  obtain ⟨w, rfl⟩ : ∃ w, width = w + 2 := ⟨width - 2, by omega⟩
  obtain ⟨h, rfl⟩ : ∃ h, height = h + 2 := ⟨height - 2, by omega⟩
  constructor
  · push_cast; ring
  · simp only [Nat.add_sub_cancel, show w + 2 - 1 = w + 1 from rfl,
      show h + 2 - 1 = h + 1 from rfl]
    push_cast; ring

theorem vertex_and_triangle_count_witness :
    ((generateAdvancedTerrain sampleNoise sampleNormalize 3 2 [] [] []).vertices.length : Int) =
        5 * (3 * 2) ∧
      ((generateAdvancedTerrain sampleNoise sampleNormalize 3 2 [] [] []).indices.length : Int) =
        3 * (2 * ((3 - 1) * (2 - 1))) :=
  vertex_and_triangle_count sampleNoise sampleNormalize 3 2 [] (by decide) (by decide)

/-- C2: for `width ≥ 2`, `height ≥ 2` and a cell `(x, z)` with `x < width - 1` and
`z < height - 1`, the six entries of `indices` at offset `6 * (z * (width - 1) + x)` are
`start, start + width, start + 1, start + 1, start + width, start + width + 1` with
`start = z * width + x`; the 2 by 2 grid has 4 vertices and `indices = [0,2,1, 1,2,3]`. -/
theorem quad_winding (noise : Noise) (normalize : Vec3 → Vec3)
    (width height : Int) (ns : List ℚ) (x z : Nat) (hw : 2 ≤ width) (hh : 2 ≤ height)
    (hx : (x : Int) < width - 1) (hz : (z : Int) < height - 1) :
    (((generateAdvancedTerrain noise normalize width height [] [] ns).indices.drop
        (6 * (z * (width.toNat - 1) + x))).take 6).map (fun i : Nat => (i : Int)) =
      [(z : Int) * width + x, (z : Int) * width + x + width, (z : Int) * width + x + 1,
        (z : Int) * width + x + 1, (z : Int) * width + x + width,
        (z : Int) * width + x + width + 1] ∧
    (generateAdvancedTerrain noise normalize 2 2 [] [] ns).vertices.length = 5 * 4 ∧
    (generateAdvancedTerrain noise normalize 2 2 [] [] ns).indices = [0, 2, 1, 1, 2, 3] := by
  lift width to ℕ using (by omega)
  lift height to ℕ using (by omega)
  refine ⟨?_, ?_, ?_⟩
  · rw [Int.toNat_ofNat, indices_window noise normalize width height ns z x (by omega) (by omega)]
    simp [quad]
  · exact length_vertices noise normalize 2 2 ns
  · have h := indices_eq noise normalize 2 2 [] [] ns
    simpa [quad, List.range_succ] using h

theorem quad_winding_witness :
    (((generateAdvancedTerrain sampleNoise sampleNormalize 3 3 [] [] []).indices.drop
        (6 * (1 * ((3 : Int).toNat - 1) + 1))).take 6).map (fun i : Nat => (i : Int)) =
      [((1 : Nat) : Int) * 3 + (1 : Nat), ((1 : Nat) : Int) * 3 + (1 : Nat) + 3,
        ((1 : Nat) : Int) * 3 + (1 : Nat) + 1,
        ((1 : Nat) : Int) * 3 + (1 : Nat) + 1, ((1 : Nat) : Int) * 3 + (1 : Nat) + 3,
        ((1 : Nat) : Int) * 3 + (1 : Nat) + 3 + 1] ∧
    (generateAdvancedTerrain sampleNoise sampleNormalize 2 2 [] [] []).vertices.length = 5 * 4 ∧
    (generateAdvancedTerrain sampleNoise sampleNormalize 2 2 [] [] []).indices =
      [0, 2, 1, 1, 2, 3] :=
  quad_winding sampleNoise sampleNormalize 3 3 [] 1 1 (by decide) (by decide)
    (by decide) (by decide)

/-- C3: for `width ≥ 2` and `height ≥ 2`, called with empty vectors, every entry of
`indices` is strictly below the vertex count `width * height`. -/
theorem index_lt_vertex_count (noise : Noise) (normalize : Vec3 → Vec3)
    (width height : Int) (ns : List ℚ) (hw : 2 ≤ width) (hh : 2 ≤ height) :
    ∀ i ∈ (generateAdvancedTerrain noise normalize width height [] [] ns).indices,
      (i : Int) < width * height := by
  lift width to ℕ using (by omega)
  lift height to ℕ using (by omega)
  intro i hi
  exact_mod_cast indices_lt noise normalize width height ns i hi

theorem index_lt_vertex_count_witness :
    4 ∈ (generateAdvancedTerrain sampleNoise sampleNormalize 3 2 [] [] []).indices ∧
      ((4 : Nat) : Int) < 3 * 2 :=
  ⟨by decide,
    index_lt_vertex_count sampleNoise sampleNormalize 3 2 [] (by decide) (by decide) 4
      (by decide)⟩

/-- C4: for `width ≥ 2`, `height ≥ 2` and a cell `(x, z)` of the grid, the five floats of
`vertices` at offset `5 * (z * width + x)` are `x * scale - 1/2`, the height of the cell,
`z * scale - 1/2`, `x / (width - 1)` and `z / (height - 1)`, with
`scale = 1 / (max width height - 1)`, and both texture coordinates lie in `[0, 1]`. -/
theorem vertex_record (noise : Noise) (normalize : Vec3 → Vec3)
    (width height : Int) (ns : List ℚ) (x z : Nat) (hw : 2 ≤ width) (hh : 2 ≤ height)
    (hx : (x : Int) < width) (hz : (z : Int) < height) :
    ((generateAdvancedTerrain noise normalize width height [] [] ns).vertices.drop
        (5 * (z * width.toNat + x))).take 5 =
      [(x : ℚ) * (1 / ((max width height : Int) - 1 : ℚ)) - 1 / 2,
        heightValue noise ((x : ℚ) * (1 / ((max width height : Int) - 1 : ℚ)) - 1 / 2)
          ((z : ℚ) * (1 / ((max width height : Int) - 1 : ℚ)) - 1 / 2),
        (z : ℚ) * (1 / ((max width height : Int) - 1 : ℚ)) - 1 / 2,
        (x : ℚ) / ((width : ℚ) - 1),
        (z : ℚ) / ((height : ℚ) - 1)] ∧
    (0 ≤ (x : ℚ) / ((width : ℚ) - 1) ∧ (x : ℚ) / ((width : ℚ) - 1) ≤ 1) ∧
    (0 ≤ (z : ℚ) / ((height : ℚ) - 1) ∧ (z : ℚ) / ((height : ℚ) - 1) ≤ 1) := by
  have hwq : (0 : ℚ) < (width : ℚ) - 1 := by
    have : (2 : ℚ) ≤ (width : ℚ) := by exact_mod_cast hw
    linarith
  have hhq : (0 : ℚ) < (height : ℚ) - 1 := by
    have : (2 : ℚ) ≤ (height : ℚ) := by exact_mod_cast hh
    linarith
  have hxq : (x : ℚ) ≤ (width : ℚ) - 1 := by
    have : ((x : Int) : ℚ) ≤ ((width - 1 : Int) : ℚ) := by exact_mod_cast (by omega : (x : Int) ≤ width - 1)
    simpa using this
  have hzq : (z : ℚ) ≤ (height : ℚ) - 1 := by
    have : ((z : Int) : ℚ) ≤ ((height - 1 : Int) : ℚ) := by exact_mod_cast (by omega : (z : Int) ≤ height - 1)
    simpa using this
  refine ⟨?_, ⟨div_nonneg (Nat.cast_nonneg x) hwq.le, (div_le_one hwq).mpr hxq⟩,
    ⟨div_nonneg (Nat.cast_nonneg z) hhq.le, (div_le_one hhq).mpr hzq⟩⟩
  lift width to ℕ using (by omega)
  lift height to ℕ using (by omega)
  rw [Int.toNat_ofNat, vertices_window noise normalize width height ns z x (by omega) (by omega)]
  simp [cellVertices, gridPos, scale]

theorem vertex_record_witness :
    ((generateAdvancedTerrain sampleNoise sampleNormalize 3 2 [] [] []).vertices.drop
        (5 * (1 * (3 : Int).toNat + 2))).take 5 =
      [((2 : Nat) : ℚ) * (1 / ((max 3 2 : Int) - 1 : ℚ)) - 1 / 2,
        heightValue sampleNoise (((2 : Nat) : ℚ) * (1 / ((max 3 2 : Int) - 1 : ℚ)) - 1 / 2)
          (((1 : Nat) : ℚ) * (1 / ((max 3 2 : Int) - 1 : ℚ)) - 1 / 2),
        ((1 : Nat) : ℚ) * (1 / ((max 3 2 : Int) - 1 : ℚ)) - 1 / 2,
        ((2 : Nat) : ℚ) / (((3 : Int) : ℚ) - 1),
        ((1 : Nat) : ℚ) / (((2 : Int) : ℚ) - 1)] ∧
    (0 ≤ ((2 : Nat) : ℚ) / (((3 : Int) : ℚ) - 1) ∧ ((2 : Nat) : ℚ) / (((3 : Int) : ℚ) - 1) ≤ 1) ∧
    (0 ≤ ((1 : Nat) : ℚ) / (((2 : Int) : ℚ) - 1) ∧ ((1 : Nat) : ℚ) / (((2 : Int) : ℚ) - 1) ≤ 1) :=
  vertex_record sampleNoise sampleNormalize 3 2 [] 2 1 (by decide) (by decide)
    (by decide) (by decide)

/-- The octave loop adds at most the geometric sum of the amplitudes to `heightValue`. -/
theorem abs_octaveLoop_le (noise : Noise) (hnoise : ∀ a b n p, |noise a b n p| ≤ 1)
    (xPos zPos : ℚ) (n : Nat) :
    ∀ hv amp freq : ℚ, 0 ≤ amp →
      |octaveLoop noise xPos zPos n hv amp freq| ≤
        |hv| + amp * (1 - persistence ^ n) / (1 - persistence) := by
  induction n with
  | zero => intro hv amp freq _; simp [octaveLoop]
  | succ n ih =>
    intro hv amp freq hamp
    rw [octaveLoop]
    have hp : (0 : ℚ) ≤ persistence := by norm_num [persistence]
    have h1 := ih (hv + amp * noise (xPos * freq) (zPos * freq) numOctaves persistence)
      (amp * persistence) (freq * lacunarity) (mul_nonneg hamp hp)
    have h2 : |hv + amp * noise (xPos * freq) (zPos * freq) numOctaves persistence| ≤
        |hv| + amp := by
      calc |hv + amp * noise (xPos * freq) (zPos * freq) numOctaves persistence|
          ≤ |hv| + |amp * noise (xPos * freq) (zPos * freq) numOctaves persistence| :=
            abs_add _ _
        _ = |hv| + amp * |noise (xPos * freq) (zPos * freq) numOctaves persistence| := by
            rw [abs_mul, abs_of_nonneg hamp]
        _ ≤ |hv| + amp * 1 := by
            have := mul_le_mul_of_nonneg_left (hnoise (xPos * freq) (zPos * freq) numOctaves persistence) hamp
            linarith
        _ = |hv| + amp := by ring
    have h3 : amp * (1 - persistence ^ (n + 1)) / (1 - persistence) =
        amp + amp * persistence * (1 - persistence ^ n) / (1 - persistence) := by
      simp only [persistence]
      rw [pow_succ]
      ring
    rw [h3]
    linarith

/-- C7: if every noise sample has magnitude at most 1, the height stored for every cell
of a valid grid has magnitude at most
`baseAmplitude * (1 - persistence ^ numOctaves) / (1 - persistence)`, which is `15/16`. -/
theorem height_bound (noise : Noise) (normalize : Vec3 → Vec3)
    (width height : Int) (ns : List ℚ) (x z : Nat) (hnoise : ∀ a b n p, |noise a b n p| ≤ 1)
    (hw : 2 ≤ width) (hh : 2 ≤ height) (hx : (x : Int) < width) (hz : (z : Int) < height) :
    ∃ hv : ℚ,
      (generateAdvancedTerrain noise normalize width height [] [] ns).vertices[
        5 * (z * width.toNat + x) + 1]? = some hv ∧
      |hv| ≤ baseAmplitude * (1 - persistence ^ numOctaves.toNat) / (1 - persistence) ∧
      baseAmplitude * (1 - persistence ^ numOctaves.toNat) / (1 - persistence) = 15 / 16 := by
  lift width to ℕ using (by omega)
  lift height to ℕ using (by omega)
  refine ⟨heightValue noise (gridPos width height x) (gridPos width height z), ?_, ?_, ?_⟩
  · rw [Int.toNat_ofNat,
      vertices_getElem? noise normalize width height ns z x 1 (by omega) (by omega) (by omega)]
    rfl
  · have h := abs_octaveLoop_le noise hnoise (gridPos width height x) (gridPos width height z)
      numOctaves.toNat 0 baseAmplitude baseFrequency (by norm_num [baseAmplitude])
    simpa [heightValue] using h
  · have hn : numOctaves.toNat = 4 := rfl
    rw [hn]
    norm_num [baseAmplitude, persistence]

theorem height_bound_witness :
    (∀ a b n p, |sampleNoise a b n p| ≤ 1) ∧
    ∃ hv : ℚ,
      (generateAdvancedTerrain sampleNoise sampleNormalize 3 2 [] [] []).vertices[
        5 * (1 * (3 : Int).toNat + 2) + 1]? = some hv ∧
      |hv| ≤ baseAmplitude * (1 - persistence ^ numOctaves.toNat) / (1 - persistence) ∧
      baseAmplitude * (1 - persistence ^ numOctaves.toNat) / (1 - persistence) = 15 / 16 :=
  have hs : ∀ a b n p, |sampleNoise a b n p| ≤ 1 := by
    intro a b n p
    unfold sampleNoise
    split_ifs <;> norm_num
  ⟨hs, height_bound sampleNoise sampleNormalize 3 2 [] 2 1 hs (by decide) (by decide)
    (by decide) (by decide)⟩

/-! ## The normals pass -/

/-- With no room in `normals`, the body of the face loop makes an out-of-range access. -/
theorem faceStep_nil (normalize : Vec3 → Vec3) (vs : List ℚ) (is : List Nat) (i : Nat) :
    faceStep normalize vs is [] i = none := by
  unfold faceStep
  cases is[i]? <;> cases is[i + 1]? <;> cases is[i + 2]? <;> simp [addNormal, addAt]

/-- With an index vector that is not empty and no room in `normals`, the face loop makes an
out-of-range access in its first iteration. -/
theorem faceLoop_nil (normalize : Vec3 → Vec3) (vs : List ℚ) (is : List Nat)
    (his : 0 < is.length) : faceLoop normalize vs is [] = none := by
  unfold faceLoop
  obtain ⟨n, hn⟩ : ∃ n, (is.length + 2) / 3 = n + 1 := ⟨(is.length + 2) / 3 - 1, by omega⟩
  rw [hn, List.range_succ_eq_map, List.foldlM_cons, faceStep_nil]
  rfl

theorem resize_zero (v : List ℚ) : resize v 0 = [] := by
  simp [resize]

/-- With an empty index vector and an empty `normals`, both normals loops run zero times. -/
theorem normals_of_no_faces (noise : Noise) (normalize : Vec3 → Vec3) (width height : Int)
    (ns : List ℚ)
    (h : (generateAdvancedTerrain noise normalize width height [] [] ns).indices = []) :
    (generateAdvancedTerrain noise normalize width height [] [] ns).normals = some [] := by
  simp only [generateAdvancedTerrain] at h ⊢
  rw [h]
  simp [resize, faceLoop, normalizeLoop]

/-- An invalid grid has no cell that pushes indices. -/
theorem cellIndices_of_invalid (width height : Int) (hbad : width < 2 ∨ height < 2)
    (z x : Nat) : cellIndices width height z x = [] := by
  unfold cellIndices
  rw [if_neg]
  omega

theorem indices_of_invalid (noise : Noise) (normalize : Vec3 → Vec3) (width height : Int)
    (hbad : width < 2 ∨ height < 2) (vs : List ℚ) (is : List Nat) (ns : List ℚ) :
    (generateAdvancedTerrain noise normalize width height vs is ns).indices = is := by
  simp only [generateAdvancedTerrain, gridLoop_eq]
  have : (List.range height.toNat).flatMap
      (fun z => (List.range width.toNat).flatMap (cellIndices width height z)) = [] := by
    apply List.flatMap_eq_nil_iff.mpr
    intro z _
    apply List.flatMap_eq_nil_iff.mpr
    intro x _
    exact cellIndices_of_invalid width height hbad z x
  rw [this, List.append_nil]

theorem length_appended_vertices (noise : Noise) (width height : Int) :
    ((List.range height.toNat).flatMap
      (fun z => (List.range width.toNat).flatMap (cellVertices noise width height z))).length =
      5 * (width.toNat * height.toNat) := by
  rw [length_flatMap_range _ (5 * width.toNat) _
    (fun k _ => length_vertexRow noise width height k)]
  simp [Nat.mul_assoc]

/-- C5: on every valid grid, called with an empty `vertices`, the function resizes
`normals` to length zero before any vertex exists, so the first `normals[3 * i0] += ...` is
an out-of-range access: `normals` never holds one unit normal per vertex. -/
theorem normals_out_of_range (noise : Noise) (normalize : Vec3 → Vec3)
    (width height : Int) (ns : List ℚ) (hw : 2 ≤ width) (hh : 2 ≤ height) :
    resize ns ([] : List ℚ).length = [] ∧
      (generateAdvancedTerrain noise normalize width height [] [] ns).normals = none := by
  refine ⟨resize_zero ns, ?_⟩
  lift width to ℕ using (by omega)
  lift height to ℕ using (by omega)
  have hlen := length_indices noise normalize width height ns
  have hpos : 0 < (width - 1) * (height - 1) := Nat.mul_pos (by omega) (by omega)
  have hfl : faceLoop normalize
      (generateAdvancedTerrain noise normalize width height [] [] ns).vertices
      (generateAdvancedTerrain noise normalize width height [] [] ns).indices [] = none :=
    faceLoop_nil _ _ _ (by omega)
  simp only [generateAdvancedTerrain] at hfl ⊢
  rw [List.length_nil, resize_zero, hfl]
  rfl

theorem normals_out_of_range_witness :
    resize [] ([] : List ℚ).length = [] ∧
      (generateAdvancedTerrain sampleNoise sampleNormalize 2 2 [] [] []).normals = none :=
  normals_out_of_range sampleNoise sampleNormalize 2 2 [] (by decide) (by decide)

/-- C6 (as stated, refuted): with `width = 1` and `height = 3` the function runs to
completion and has appended three vertices (15 floats). -/
theorem invalid_dimension_counterexample :
    (generateAdvancedTerrain sampleNoise sampleNormalize 1 3 [] [] []).vertices.length = 15 ∧
      (generateAdvancedTerrain sampleNoise sampleNormalize 1 3 [] [] []).indices = [] ∧
      (generateAdvancedTerrain sampleNoise sampleNormalize 1 3 [] [] []).normals = some [] := by
  have hi := indices_of_invalid sampleNoise sampleNormalize 1 3 (by decide) [] [] []
  refine ⟨?_, hi, normals_of_no_faces _ _ _ _ _ hi⟩
  rw [vertices_eq, List.nil_append, length_appended_vertices]
  rfl

/-- C6 (amended): the function has no failure path for an invalid grid. Called with empty
`vertices` and `indices` and with `width < 2` or `height < 2`, it leaves `indices` empty and
leaves in `vertices` five floats for each of the `max width 0 * max height 0` cells of the
grid (so no vertex only when `width ≤ 0` or `height ≤ 0`). -/
theorem invalid_dimension_behaviour (noise : Noise) (normalize : Vec3 → Vec3)
    (width height : Int) (ns : List ℚ) (hbad : width < 2 ∨ height < 2) :
    (generateAdvancedTerrain noise normalize width height [] [] ns).indices = [] ∧
    (generateAdvancedTerrain noise normalize width height [] [] ns).vertices.length =
      5 * (width.toNat * height.toNat) := by
  refine ⟨indices_of_invalid noise normalize width height hbad [] [] ns, ?_⟩
  rw [vertices_eq, List.nil_append]
  exact length_appended_vertices noise width height

theorem invalid_dimension_behaviour_witness :
    (generateAdvancedTerrain sampleNoise sampleNormalize 1 3 [] [] []).indices = [] ∧
    (generateAdvancedTerrain sampleNoise sampleNormalize 1 3 [] [] []).vertices.length =
      5 * ((1 : Int).toNat * (3 : Int).toNat) :=
  invalid_dimension_behaviour sampleNoise sampleNormalize 1 3 [] (by decide)

/-! ## Face points -/

/-- The vertex vector of the 2 by 2 grid. -/
theorem vertices_two_by_two (noise : Noise) (normalize : Vec3 → Vec3) (ns : List ℚ) :
    (generateAdvancedTerrain noise normalize 2 2 [] [] ns).vertices =
      [-1 / 2, heightValue noise (-1 / 2) (-1 / 2), -1 / 2, 0, 0,
        1 / 2, heightValue noise (1 / 2) (-1 / 2), -1 / 2, 1, 0,
        -1 / 2, heightValue noise (-1 / 2) (1 / 2), 1 / 2, 0, 1,
        1 / 2, heightValue noise (1 / 2) (1 / 2), 1 / 2, 1, 1] := by
  rw [vertices_eq]
  have h2 : (2 : Int).toNat = 2 := rfl
  simp only [h2, List.range_succ, List.range_zero, List.nil_append, List.flatMap_append,
    List.flatMap_singleton, List.flatMap_nil, cellVertices, gridPos, scale]
  norm_num

/-- C9: on the 2 by 2 grid the first triangle is `(0, 2, 1)`, and the point the face loop
reads for its index `i1 = 2` is made of the floats at offsets 6, 7, 8 (stride 3: the height
and z of vertex 1 and its texture u), not of the stored position of vertex 2 at offsets
10, 11, 12 (stride 5). -/
theorem face_point_stride (noise : Noise) (normalize : Vec3 → Vec3) (ns : List ℚ) :
    (generateAdvancedTerrain noise normalize 2 2 [] [] ns).indices.take 3 = [0, 2, 1] ∧
    facePoint (generateAdvancedTerrain noise normalize 2 2 [] [] ns).vertices 2 =
      some (heightValue noise (1 / 2) (-1 / 2), -1 / 2, 1) ∧
    storedPosition (generateAdvancedTerrain noise normalize 2 2 [] [] ns).vertices 2 =
      some (-1 / 2, heightValue noise (-1 / 2) (1 / 2), 1 / 2) ∧
    facePoint (generateAdvancedTerrain noise normalize 2 2 [] [] ns).vertices 2 ≠
      storedPosition (generateAdvancedTerrain noise normalize 2 2 [] [] ns).vertices 2 := by
  have hi : (generateAdvancedTerrain noise normalize 2 2 [] [] ns).indices =
      [0, 2, 1, 1, 2, 3] := by
    have h := indices_eq noise normalize 2 2 [] [] ns
    simpa [quad, List.range_succ] using h
  have hf : facePoint (generateAdvancedTerrain noise normalize 2 2 [] [] ns).vertices 2 =
      some (heightValue noise (1 / 2) (-1 / 2), -1 / 2, 1) := by
    rw [vertices_two_by_two]; rfl
  have hs : storedPosition (generateAdvancedTerrain noise normalize 2 2 [] [] ns).vertices 2 =
      some (-1 / 2, heightValue noise (-1 / 2) (1 / 2), 1 / 2) := by
    rw [vertices_two_by_two]; rfl
  refine ⟨by rw [hi]; rfl, hf, hs, ?_⟩
  rw [hf, hs]
  intro h
  have h3 := congrArg (fun o : Option Vec3 => o.map (fun v => v.2.2)) h
  norm_num at h3

/-! ## Centring -/

/-- The position of column (or row) `k` mirrors that of column (or row) 0 exactly when
`k = max width height - 1`. -/
theorem gridPos_zero_eq_neg_iff (width height : Int) (k : Nat) (hm : 2 ≤ max width height) :
    gridPos width height 0 = -gridPos width height k ↔ (k : Int) = max width height - 1 := by
  unfold gridPos scale
  have hM : (0 : ℚ) < ((max width height - 1 : Int) : ℚ) := by
    exact_mod_cast (by omega : (0 : Int) < max width height - 1)
  generalize max width height - 1 = M at hM ⊢
  constructor
  · intro h
    have h1 : ((k : Int) : ℚ) = (M : ℚ) := by
      field_simp at h
      push_cast at h ⊢
      linarith
    exact_mod_cast h1
  · intro h
    rw [h]
    field_simp
    ring

/-- C8 (as stated, refuted): on the 2 by 3 grid the first column has `x = -1/2` and the
last column has `x = 0`. -/
theorem centering_counterexample :
    (generateAdvancedTerrain sampleNoise sampleNormalize 2 3 [] [] []).vertices[0]? =
        some (-1 / 2 : ℚ) ∧
      (generateAdvancedTerrain sampleNoise sampleNormalize 2 3 [] [] []).vertices[5]? =
        some (0 : ℚ) ∧
      ¬ ((-1 / 2 : ℚ) = -0) := by
  have h0 := vertices_getElem? sampleNoise sampleNormalize 2 3 [] 0 0 0
    (by decide) (by decide) (by decide)
  have h1 := vertices_getElem? sampleNoise sampleNormalize 2 3 [] 0 1 0
    (by decide) (by decide) (by decide)
  refine ⟨?_, ?_, by norm_num⟩
  · refine Eq.trans h0 ?_
    norm_num [cellVertices, gridPos, scale]
  · refine Eq.trans h1 ?_
    norm_num [cellVertices, gridPos, scale]

/-- C8 (amended): on a valid grid, in every row the x-coordinate of the first column is
`-1/2` and it is the negative of that of the last column exactly when `height ≤ width`; in
every column the z-coordinate of the first row is `-1/2` and it is the negative of that of
the last row exactly when `width ≤ height`. -/
theorem centering (noise : Noise) (normalize : Vec3 → Vec3)
    (width height : Int) (ns : List ℚ) (x z : Nat) (hw : 2 ≤ width) (hh : 2 ≤ height)
    (hx : (x : Int) < width) (hz : (z : Int) < height) :
    (∃ a b : ℚ,
      (generateAdvancedTerrain noise normalize width height [] [] ns).vertices[
        5 * (z * width.toNat + 0)]? = some a ∧
      (generateAdvancedTerrain noise normalize width height [] [] ns).vertices[
        5 * (z * width.toNat + (width.toNat - 1))]? = some b ∧
      a = -1 / 2 ∧ (a = -b ↔ height ≤ width)) ∧
    (∃ c d : ℚ,
      (generateAdvancedTerrain noise normalize width height [] [] ns).vertices[
        5 * (0 * width.toNat + x) + 2]? = some c ∧
      (generateAdvancedTerrain noise normalize width height [] [] ns).vertices[
        5 * ((height.toNat - 1) * width.toNat + x) + 2]? = some d ∧
      c = -1 / 2 ∧ (c = -d ↔ width ≤ height)) := by
  lift width to ℕ using (by omega)
  lift height to ℕ using (by omega)
  have hm : (2 : Int) ≤ max (width : Int) (height : Int) := le_trans hw (le_max_left _ _)
  have hzero : gridPos (width : Int) (height : Int) 0 = -1 / 2 := by
    simp [gridPos]; norm_num
  simp only [Int.toNat_ofNat]
  refine ⟨⟨gridPos width height 0, gridPos width height (width - 1), ?_, ?_, hzero, ?_⟩,
    ⟨gridPos width height 0, gridPos width height (height - 1), ?_, ?_, hzero, ?_⟩⟩
  · have h := vertices_getElem? noise normalize width height ns z 0 0
      (by omega) (by omega) (by omega)
    simpa [cellVertices] using h
  · have h := vertices_getElem? noise normalize width height ns z (width - 1) 0
      (by omega) (by omega) (by omega)
    simpa [cellVertices] using h
  · rw [gridPos_zero_eq_neg_iff _ _ _ hm]
    omega
  · have h := vertices_getElem? noise normalize width height ns 0 x 2
      (by omega) (by omega) (by omega)
    simpa [cellVertices] using h
  · have h := vertices_getElem? noise normalize width height ns (height - 1) x 2
      (by omega) (by omega) (by omega)
    simpa [cellVertices] using h
  · rw [gridPos_zero_eq_neg_iff _ _ _ hm]
    omega

theorem centering_witness :
    (∃ a b : ℚ,
      (generateAdvancedTerrain sampleNoise sampleNormalize 3 2 [] [] []).vertices[
        5 * (1 * (3 : Int).toNat + 0)]? = some a ∧
      (generateAdvancedTerrain sampleNoise sampleNormalize 3 2 [] [] []).vertices[
        5 * (1 * (3 : Int).toNat + ((3 : Int).toNat - 1))]? = some b ∧
      a = -1 / 2 ∧ (a = -b ↔ (2 : Int) ≤ 3)) ∧
    (∃ c d : ℚ,
      (generateAdvancedTerrain sampleNoise sampleNormalize 3 2 [] [] []).vertices[
        5 * (0 * (3 : Int).toNat + 2) + 2]? = some c ∧
      (generateAdvancedTerrain sampleNoise sampleNormalize 3 2 [] [] []).vertices[
        5 * (((2 : Int).toNat - 1) * (3 : Int).toNat + 2) + 2]? = some d ∧
      c = -1 / 2 ∧ (c = -d ↔ (3 : Int) ≤ 2)) :=
  centering sampleNoise sampleNormalize 3 2 [] 2 1 (by decide) (by decide)
    (by decide) (by decide)

/-! ## Incident faces -/

/-- An entry of the block of six that starts at `6 * c` belongs to one of the two triangles
stored in that block. -/
theorem triangle_of_entry (l : List Nat) (c j v : Nat) (hj : j < 6)
    (h : l[6 * c + j]? = some v) (hlast : 6 * c + 5 < l.length) :
    ∃ t : Nat, 3 * t + 2 < l.length ∧
      (l[3 * t]? = some v ∨ l[3 * t + 1]? = some v ∨ l[3 * t + 2]? = some v) := by
  have e0 : 3 * (2 * c) = 6 * c + 0 := by ring
  have e1 : 3 * (2 * c) + 1 = 6 * c + 1 := by ring
  have e2 : 3 * (2 * c) + 2 = 6 * c + 2 := by ring
  have e3 : 3 * (2 * c + 1) = 6 * c + 3 := by ring
  have e4 : 3 * (2 * c + 1) + 1 = 6 * c + 4 := by ring
  have e5 : 3 * (2 * c + 1) + 2 = 6 * c + 5 := by ring
  interval_cases j
  · exact ⟨2 * c, by omega, Or.inl (by rw [e0]; exact h)⟩
  · exact ⟨2 * c, by omega, Or.inr (Or.inl (by rw [e1]; exact h))⟩
  · exact ⟨2 * c, by omega, Or.inr (Or.inr (by rw [e2]; exact h))⟩
  · exact ⟨2 * c + 1, by omega, Or.inl (by rw [e3]; exact h)⟩
  · exact ⟨2 * c + 1, by omega, Or.inr (Or.inl (by rw [e4]; exact h))⟩
  · exact ⟨2 * c + 1, by omega, Or.inr (Or.inr (by rw [e5]; exact h))⟩

/-- The corner `j` of the quad of the cell `(x, z)` has an incident triangle. -/
theorem triangle_of_corner (noise : Noise) (normalize : Vec3 → Vec3) (w h : Nat)
    (ns : List ℚ) (z x j v : Nat) (hz : z + 1 < h) (hx : x + 1 < w) (hj : j < 6)
    (hv : (quad w z x)[j]? = some v) :
    ∃ t : Nat,
      3 * t + 2 <
        (generateAdvancedTerrain noise normalize (w : Int) (h : Int) [] [] ns).indices.length ∧
      ((generateAdvancedTerrain noise normalize (w : Int) (h : Int) [] [] ns).indices[3 * t]? =
          some v ∨
        (generateAdvancedTerrain noise normalize (w : Int) (h : Int) [] [] ns).indices[
          3 * t + 1]? = some v ∨
        (generateAdvancedTerrain noise normalize (w : Int) (h : Int) [] [] ns).indices[
          3 * t + 2]? = some v) := by
  have hlast := indices_getElem? noise normalize w h ns z x 5 hz hx (by omega)
  have hlt : 6 * (z * (w - 1) + x) + 5 <
      (generateAdvancedTerrain noise normalize (w : Int) (h : Int) [] [] ns).indices.length := by
    by_contra hcon
    rw [List.getElem?_eq_none (by omega)] at hlast
    simp [quad] at hlast
  exact triangle_of_entry _ (z * (w - 1) + x) j v hj
    ((indices_getElem? noise normalize w h ns z x j hz hx hj).trans hv) hlt

/-- C10: on a valid grid every vertex index `v < width * height` is one of the three
indices of at least one triangle of the index vector. -/
theorem vertex_has_incident_triangle (noise : Noise) (normalize : Vec3 → Vec3)
    (width height : Int) (ns : List ℚ) (v : Nat) (hw : 2 ≤ width) (hh : 2 ≤ height)
    (hv : (v : Int) < width * height) :
    ∃ t : Nat,
      3 * t + 2 <
        (generateAdvancedTerrain noise normalize width height [] [] ns).indices.length ∧
      ((generateAdvancedTerrain noise normalize width height [] [] ns).indices[3 * t]? =
          some v ∨
        (generateAdvancedTerrain noise normalize width height [] [] ns).indices[
          3 * t + 1]? = some v ∨
        (generateAdvancedTerrain noise normalize width height [] [] ns).indices[
          3 * t + 2]? = some v) := by
  lift width to ℕ using (by omega)
  lift height to ℕ using (by omega)
  have hw2 : 2 ≤ width := by exact_mod_cast hw
  have hh2 : 2 ≤ height := by exact_mod_cast hh
  have hvn : v < width * height := by exact_mod_cast hv
  have hwpos : 0 < width := by omega
  have hx : v % width < width := Nat.mod_lt v hwpos
  have hz : v / width < height := (Nat.div_lt_iff_lt_mul hwpos).mpr (by rwa [Nat.mul_comm] at hvn)
  have hdm : v / width * width + v % width = v := by
    rw [Nat.mul_comm]; exact Nat.div_add_mod v width
  generalize v / width = z at hz hdm
  generalize v % width = x at hx hdm
  by_cases hxl : x + 1 < width <;> by_cases hzl : z + 1 < height
  · exact triangle_of_corner noise normalize width height ns z x 0 v hzl hxl (by omega)
      (by simp [quad, hdm])
  · obtain ⟨z, rfl⟩ : ∃ k, z = k + 1 := ⟨z - 1, by omega⟩
    refine triangle_of_corner noise normalize width height ns z x 1 v (by omega) hxl (by omega)
      (by simp [quad]; rw [← hdm]; ring)
  · obtain ⟨x, rfl⟩ : ∃ k, x = k + 1 := ⟨x - 1, by omega⟩
    refine triangle_of_corner noise normalize width height ns z x 2 v hzl (by omega) (by omega)
      (by simp [quad]; rw [← hdm]; ring)
  · obtain ⟨z, rfl⟩ : ∃ k, z = k + 1 := ⟨z - 1, by omega⟩
    obtain ⟨x, rfl⟩ : ∃ k, x = k + 1 := ⟨x - 1, by omega⟩
    refine triangle_of_corner noise normalize width height ns z x 5 v (by omega) (by omega)
      (by omega) (by simp [quad]; rw [← hdm]; ring)

theorem vertex_has_incident_triangle_witness :
    ∃ t : Nat,
      3 * t + 2 <
        (generateAdvancedTerrain sampleNoise sampleNormalize 3 2 [] [] []).indices.length ∧
      ((generateAdvancedTerrain sampleNoise sampleNormalize 3 2 [] [] []).indices[3 * t]? =
          some 5 ∨
        (generateAdvancedTerrain sampleNoise sampleNormalize 3 2 [] [] []).indices[
          3 * t + 1]? = some 5 ∨
        (generateAdvancedTerrain sampleNoise sampleNormalize 3 2 [] [] []).indices[
          3 * t + 2]? = some 5) :=
  vertex_has_incident_triangle sampleNoise sampleNormalize 3 2 [] 5 (by decide) (by decide)
    (by decide)

end Terrain
